import Mathlib

/-
Verification of the OpenccJNI binding layer against its specification.

The repository's only source file is the JNI wrapper
`src/openccjni/src/main/java/opencc/OpenccWrapper.cpp` (79 lines of
marshaling glue).  The conversion engine itself (dictionary store,
segmenter/matcher, script detector, instance manager) lives in the external
native library `opencc_fmmseg_capi`; following the specification, those
components are modelled here from the spec's words, while the wrapper's
byte-array marshaling is embedded directly from the C++ source.
-/

namespace OpenccJNI

/-! ## Segmenter/Matcher (spec §4.2)

Modelled from the spec: the Segmenter/Matcher is part of the native engine
and is not in the repository.  A dictionary entry is a (source, target)
pair of codepoint sequences; tables are composed into ordered chains.
`matchAt` realises the core disambiguation rule of §4.2: the longest
matching entry anywhere in the chain wins, and ties in length are broken
by chain order (earlier table wins, and within a table the earlier entry).
-/

/-- Source/target pair of one conversion lexicon entry (spec §3,
DictionaryEntry).  Text is modelled at codepoint granularity. -/
structure DictEntry where
  src : List Char
  tgt : List Char
deriving DecidableEq, Repr

/-- One lexicon table: an ordered list of entries (spec §3, DictionaryTable). -/
abbrev DictTable := List DictEntry

/-- An ordered chain of tables; earlier tables take priority (spec §3). -/
abbrev DictChain := List DictTable

/-- Whether entry `e` matches at the start of the remaining text `s`:
its source is nonempty and a prefix of `s`. -/
def entryMatches (e : DictEntry) (s : List Char) : Bool :=
  !e.src.isEmpty && e.src.isPrefixOf s

/-- Candidate accumulator: keep the strictly longer candidate, so that on a
length tie the earlier candidate (earlier table / earlier entry) wins. -/
def betterCand : Option (Nat × List Char) → Nat × List Char → Option (Nat × List Char)
  | none, c => some c
  | some (bl, br), (l, r) => if bl < l then some (l, r) else some (bl, br)

/-- Scan of the candidate entries in priority order, keeping the best
candidate seen so far. -/
def scanEntries (s : List Char) (acc : Option (Nat × List Char)) :
    List DictEntry → Option (Nat × List Char)
  | [] => acc
  | e :: es =>
    scanEntries s (if entryMatches e s then betterCand acc (e.src.length, e.tgt) else acc) es

/-- Longest-match lookup over a flat list of entries in priority order. -/
def matchEntries (s : List Char) (es : List DictEntry) : Option (Nat × List Char) :=
  scanEntries s none es

/-- Spec §4.2 `match(text, chain, position)`: the remaining text plays the
role of (text, position).  Tables are consulted in chain order; the longest
matching entry wins, ties broken by order. -/
def matchAt (chain : DictChain) (s : List Char) : Option (Nat × List Char) :=
  matchEntries s chain.flatten

/-- Fuel-indexed forward maximum-matching loop.  The fuel is a standard
device to make the recursion structural (and hence kernel-reducible); any
fuel of at least the text's length never runs out, since each step consumes
at least one codepoint.  `List.drop (len - 1) rest` equals
`List.drop len (c :: rest)` for the `len ≥ 1` produced by `matchAt`. -/
def convertFuel (chain : DictChain) : Nat → List Char → List Char
  | _, [] => []
  | 0, s => s
  | fuel + 1, c :: rest =>
    match matchAt chain (c :: rest) with
    | none => c :: convertFuel chain fuel rest
    | some (len, repl) => repl ++ convertFuel chain fuel (List.drop (len - 1) rest)

/-- Forward maximum-matching conversion of a codepoint sequence (spec §4.2/4.3):
at each position emit the replacement of the longest match and advance by its
source length, or copy the single current codepoint through unchanged. -/
def convertChars (chain : DictChain) (s : List Char) : List Char :=
  convertFuel chain s.length s

theorem convertFuel_congr (chain : DictChain) :
    ∀ f1 f2 s, s.length ≤ f1 → s.length ≤ f2 →
      convertFuel chain f1 s = convertFuel chain f2 s := by
  intro f1
  induction f1 with
  | zero =>
    intro f2 s hs _
    have hnil : s = [] := List.eq_nil_of_length_eq_zero (Nat.le_zero.mp hs)
    subst hnil
    cases f2 <;> rfl
  | succ f ih =>
    intro f2 s hs1 hs2
    cases s with
    | nil => cases f2 <;> rfl
    | cons c rest =>
      cases f2 with
      | zero => simp at hs2
      | succ g =>
        simp only [List.length_cons, Nat.succ_le_succ_iff] at hs1 hs2
        simp only [convertFuel]
        cases hm : matchAt chain (c :: rest) with
        | none =>
          rw [ih g rest hs1 hs2]
        | some p =>
          obtain ⟨len, repl⟩ := p
          have hd : (List.drop (len - 1) rest).length ≤ rest.length := by
            rw [List.length_drop]; omega
          have hg := ih g (List.drop (len - 1) rest) (le_trans hd hs1) (le_trans hd hs2)
          simp only [hg]

theorem convertChars_nil (chain : DictChain) : convertChars chain [] = [] := rfl

theorem convertChars_cons_none (chain : DictChain) (c : Char) (rest : List Char)
    (h : matchAt chain (c :: rest) = none) :
    convertChars chain (c :: rest) = c :: convertChars chain rest := by
  show convertFuel chain (c :: rest).length (c :: rest) = _
  simp only [List.length_cons, convertFuel, h]
  rfl

theorem convertChars_cons_some (chain : DictChain) (c : Char) (rest : List Char)
    (len : Nat) (repl : List Char) (h : matchAt chain (c :: rest) = some (len, repl)) :
    convertChars chain (c :: rest) = repl ++ convertChars chain (List.drop (len - 1) rest) := by
  show convertFuel chain (c :: rest).length (c :: rest) = _
  simp only [List.length_cons, convertFuel, h]
  have hd : (List.drop (len - 1) rest).length ≤ rest.length := by
    rw [List.length_drop]; omega
  rw [convertFuel_congr chain rest.length (List.drop (len - 1) rest).length
    (List.drop (len - 1) rest) hd le_rfl]
  rfl

theorem scanEntries_some_acc (s : List Char) :
    ∀ (es : List DictEntry) (al : Nat) (ar : List Char),
      ∃ len repl, scanEntries s (some (al, ar)) es = some (len, repl) := by
  intro es
  induction es with
  | nil => intro al ar; exact ⟨al, ar, rfl⟩
  | cons e es ih =>
    intro al ar
    simp only [scanEntries]
    by_cases hm : entryMatches e s
    · simp only [hm, if_true, betterCand]
      by_cases hl : al < e.src.length
      · simp only [hl, if_true]; exact ih _ _
      · simp only [hl, if_false]; exact ih _ _
    · simp only [hm, if_false]; exact ih _ _

theorem scanEntries_none_iff (s : List Char) :
    ∀ es : List DictEntry,
      (scanEntries s none es = none ↔ ∀ e ∈ es, entryMatches e s = false) := by
  intro es
  induction es with
  | nil => simp [scanEntries]
  | cons e es ih =>
    simp only [scanEntries]
    by_cases hm : entryMatches e s
    · simp only [hm, if_true, betterCand]
      obtain ⟨len, repl, hlr⟩ := scanEntries_some_acc s es e.src.length e.tgt
      rw [hlr]
      simp [hm]
    · have hf : entryMatches e s = false := by
        cases h' : entryMatches e s
        · rfl
        · exact absurd h' hm
      simp only [hm, if_false, ih, List.forall_mem_cons, hf]
      tauto

theorem scanEntries_mono (s : List Char) :
    ∀ (es : List DictEntry) (al len : Nat) (ar repl : List Char),
      scanEntries s (some (al, ar)) es = some (len, repl) →
      (al = len ∧ ar = repl) ∨ al < len := by
  intro es
  induction es with
  | nil =>
    intro al len ar repl h
    simp only [scanEntries, Option.some.injEq, Prod.mk.injEq] at h
    exact Or.inl h
  | cons e es ih =>
    intro al len ar repl h
    simp only [scanEntries] at h
    by_cases hm : entryMatches e s
    · simp only [hm, if_true, betterCand] at h
      by_cases hl : al < e.src.length
      · simp only [hl, if_true] at h
        rcases ih _ _ _ _ h with ⟨h1, _⟩ | h1
        · omega
        · omega
      · simp only [hl, if_false] at h
        exact ih _ _ _ _ h
    · simp only [hm, if_false] at h
      exact ih _ _ _ _ h

theorem scanEntries_max (s : List Char) :
    ∀ (es : List DictEntry) (acc : Option (Nat × List Char)) (len : Nat) (repl : List Char),
      scanEntries s acc es = some (len, repl) →
      ∀ e ∈ es, entryMatches e s = true → e.src.length ≤ len := by
  intro es
  induction es with
  | nil => intro acc len repl _ e he; simp at he
  | cons e0 es ih =>
    intro acc len repl h e he hm
    simp only [scanEntries] at h
    rcases List.mem_cons.mp he with rfl | he'
    · simp only [hm, if_true] at h
      rcases acc with _ | ⟨al, ar⟩
      · simp only [betterCand] at h
        rcases scanEntries_mono s es _ _ _ _ h with ⟨h1, _⟩ | h1 <;> omega
      · simp only [betterCand] at h
        by_cases hl : al < e.src.length
        · simp only [hl, if_true] at h
          rcases scanEntries_mono s es _ _ _ _ h with ⟨h1, _⟩ | h1 <;> omega
        · simp only [hl, if_false] at h
          rcases scanEntries_mono s es _ _ _ _ h with ⟨h1, _⟩ | h1 <;> omega
    · exact ih _ _ _ h e he' hm

/-- Unfolding of `entryMatches` into propositional form. -/
theorem entryMatches_iff (e : DictEntry) (s : List Char) :
    entryMatches e s = true ↔ e.src ≠ [] ∧ e.src <+: s := by
  simp [entryMatches, List.isPrefixOf_iff_prefix, List.isEmpty_iff]

/-- Candidate predicate for the tie-break statement: a matching entry of
exactly the winning length. -/
def winsAt (s : List Char) (len : Nat) (e : DictEntry) : Bool :=
  entryMatches e s && e.src.length == len

theorem scanEntries_find_gen (s : List Char) :
    ∀ (es : List DictEntry) (al len : Nat) (ar repl : List Char),
      scanEntries s (some (al, ar)) es = some (len, repl) → al < len →
      ∃ e, es.find? (winsAt s len) = some e ∧ e.tgt = repl ∧ e.src.length = len := by
  intro es
  induction es with
  | nil =>
    intro al len ar repl h hlt
    simp only [scanEntries, Option.some.injEq, Prod.mk.injEq] at h
    omega
  | cons e es ih =>
    intro al len ar repl h hlt
    simp only [scanEntries] at h
    by_cases hm : entryMatches e s
    · simp only [hm, if_true, betterCand] at h
      by_cases hl : al < e.src.length
      · simp only [hl, if_true] at h
        rcases scanEntries_mono s es _ _ _ _ h with ⟨h1, h2⟩ | h1
        · refine ⟨e, ?_, h2, h1⟩
          apply List.find?_cons_of_pos
          simp [winsAt, hm, h1]
        · rw [List.find?_cons_of_neg]
          · exact ih _ _ _ _ h h1
          · simp only [winsAt, Bool.and_eq_true, beq_iff_eq, not_and]
            intro _
            omega
      · simp only [hl, if_false] at h
        rw [List.find?_cons_of_neg]
        · exact ih _ _ _ _ h hlt
        · simp only [winsAt, Bool.and_eq_true, beq_iff_eq, not_and]
          intro _
          omega
    · simp only [hm, if_false] at h
      rw [List.find?_cons_of_neg]
      · exact ih _ _ _ _ h hlt
      · simp [winsAt, hm]

/-- Tie-break characterization: the winning candidate of `matchEntries` is
the first entry, in priority order, among those that match with the winning
(maximal) length. -/
theorem matchEntries_find (s : List Char) :
    ∀ (es : List DictEntry) (len : Nat) (repl : List Char),
      matchEntries s es = some (len, repl) →
      ∃ e, es.find? (winsAt s len) = some e ∧ e.tgt = repl ∧ e.src.length = len := by
  intro es
  induction es with
  | nil => intro len repl h; simp [matchEntries, scanEntries] at h
  | cons e es ih =>
    intro len repl h
    simp only [matchEntries, scanEntries] at h
    by_cases hm : entryMatches e s
    · simp only [hm, if_true, betterCand] at h
      rcases scanEntries_mono s es _ _ _ _ h with ⟨h1, h2⟩ | h1
      · refine ⟨e, ?_, h2, h1⟩
        apply List.find?_cons_of_pos
        simp [winsAt, hm, h1]
      · rw [List.find?_cons_of_neg]
        · exact scanEntries_find_gen s es _ _ _ _ h h1
        · simp only [winsAt, Bool.and_eq_true, beq_iff_eq, not_and]
          intro _
          omega
    · simp only [hm, if_false] at h
      rw [List.find?_cons_of_neg]
      · exact ih _ _ h
      · simp [winsAt, hm]

/-- Every winning match comes from an actual matching entry; in particular
its length is at least 1 (sources are nonempty) and at most the remaining
text's length (sources are prefixes). -/
theorem matchEntries_some_mem (s : List Char) (es : List DictEntry) (len : Nat)
    (repl : List Char) (h : matchEntries s es = some (len, repl)) :
    ∃ e ∈ es, entryMatches e s = true ∧ e.src.length = len ∧ e.tgt = repl := by
  obtain ⟨e, hfind, htgt, hlen⟩ := matchEntries_find s es len repl h
  have hmem := List.mem_of_find?_eq_some hfind
  have hpred := List.find?_some hfind
  simp only [winsAt, Bool.and_eq_true] at hpred
  exact ⟨e, hmem, hpred.1, hlen, htgt⟩

theorem matchEntries_len_bounds (s : List Char) (es : List DictEntry) (len : Nat)
    (repl : List Char) (h : matchEntries s es = some (len, repl)) :
    1 ≤ len ∧ len ≤ s.length := by
  obtain ⟨e, _, hm, hlen, _⟩ := matchEntries_some_mem s es len repl h
  rw [entryMatches_iff] at hm
  constructor
  · rw [← hlen]
    cases hsrc : e.src with
    | nil => exact absurd hsrc hm.1
    | cons a l => simp
  · rw [← hlen]
    exact hm.2.length_le

/-! ### Stability of matching under append

These lemmas justify the chunked (parallel) conversion path of spec §4.3:
a match that fits inside a prefix of the text is found identically whether
or not the rest of the text is visible. -/

theorem entryMatches_append_of_matches (e : DictEntry) (a b : List Char)
    (h : entryMatches e a = true) : entryMatches e (a ++ b) = true := by
  rw [entryMatches_iff] at h ⊢
  exact ⟨h.1, h.2.trans (List.prefix_append a b)⟩

theorem entryMatches_of_append_of_le (e : DictEntry) (a b : List Char)
    (h : entryMatches e (a ++ b) = true) (hle : e.src.length ≤ a.length) :
    entryMatches e a = true := by
  rw [entryMatches_iff] at h ⊢
  obtain ⟨hne, hpre⟩ := h
  refine ⟨hne, ?_⟩
  have h2 : e.src = List.take e.src.length (a ++ b) := List.prefix_iff_eq_take.mp hpre
  rw [List.take_append_of_le_length hle] at h2
  rw [h2]
  exact List.take_prefix _ a

theorem scanEntries_congr (s t : List Char)
    (es : List DictEntry) (H : ∀ e ∈ es, entryMatches e s = entryMatches e t) :
    ∀ acc, scanEntries s acc es = scanEntries t acc es := by
  induction es with
  | nil => intro acc; rfl
  | cons e es ih =>
    intro acc
    simp only [scanEntries, H e (List.mem_cons_self e es)]
    exact ih (fun e' he' => H e' (List.mem_cons_of_mem e he')) _

theorem matchEntries_append_some (a b : List Char) (es : List DictEntry)
    (len : Nat) (repl : List Char)
    (h : matchEntries (a ++ b) es = some (len, repl)) (hle : len ≤ a.length) :
    matchEntries a es = some (len, repl) := by
  have H : ∀ e ∈ es, entryMatches e (a ++ b) = entryMatches e a := by
    intro e he
    cases hm : entryMatches e a with
    | true => exact entryMatches_append_of_matches e a b hm
    | false =>
      cases hm2 : entryMatches e (a ++ b) with
      | false => rfl
      | true =>
        have hlen := scanEntries_max (a ++ b) es none len repl h e he hm2
        have := entryMatches_of_append_of_le e a b hm2 (le_trans hlen hle)
        rw [this] at hm
        exact hm

  rw [← h]
  exact (scanEntries_congr (a ++ b) a es H none).symm

theorem matchEntries_append_none (a b : List Char) (es : List DictEntry)
    (h : matchEntries (a ++ b) es = none) : matchEntries a es = none := by
  rw [matchEntries, scanEntries_none_iff] at h ⊢
  intro e he
  cases hm : entryMatches e a with
  | false => rfl
  | true =>
    have := entryMatches_append_of_matches e a b hm
    rw [h e he] at this
    exact this.symm

theorem matchAt_append_some (a b : List Char) (chain : DictChain)
    (len : Nat) (repl : List Char)
    (h : matchAt chain (a ++ b) = some (len, repl)) (hle : len ≤ a.length) :
    matchAt chain a = some (len, repl) :=
  matchEntries_append_some a b chain.flatten len repl h hle

theorem matchAt_append_none (a b : List Char) (chain : DictChain)
    (h : matchAt chain (a ++ b) = none) : matchAt chain a = none :=
  matchEntries_append_none a b chain.flatten h

theorem matchAt_len_bounds (chain : DictChain) (s : List Char) (len : Nat)
    (repl : List Char) (h : matchAt chain s = some (len, repl)) :
    1 ≤ len ∧ len ≤ s.length :=
  matchEntries_len_bounds s chain.flatten len repl h

/-! ### Chunked conversion (spec §4.3 parallel path)

Modelled from the spec: when the Instance's parallel flag is set and the
input exceeds the chunking threshold, the engine partitions the input on
safe boundaries (boundaries of forward-maximum-matching steps, which never
split a codepoint or a dictionary match), converts the chunks
independently, and concatenates in original chunk order. -/

/-- Consume up to `n` forward-maximum-matching steps from the front of the
text, returning the consumed prefix and the remaining suffix. -/
def takeStepsAux (chain : DictChain) : Nat → List Char → List Char × List Char
  | 0, s => ([], s)
  | _ + 1, [] => ([], [])
  | n + 1, c :: rest =>
    match matchAt chain (c :: rest) with
    | none =>
      let pq := takeStepsAux chain n rest
      (c :: pq.1, pq.2)
    | some (len, _) =>
      let pq := takeStepsAux chain n (List.drop (len - 1) rest)
      (c :: (List.take (len - 1) rest ++ pq.1), pq.2)

theorem takeStepsAux_append (chain : DictChain) :
    ∀ (n : Nat) (s : List Char),
      (takeStepsAux chain n s).1 ++ (takeStepsAux chain n s).2 = s := by
  intro n
  induction n with
  | zero => intro s; rfl
  | succ n ih =>
    intro s
    cases s with
    | nil => rfl
    | cons c rest =>
      simp only [takeStepsAux]
      cases hm : matchAt chain (c :: rest) with
      | none => simp [ih rest]
      | some p =>
        obtain ⟨len, repl⟩ := p
        simp only [List.cons_append, List.cons.injEq, true_and, List.append_assoc]
        rw [ih (List.drop (len - 1) rest)]
        exact List.take_append_drop (len - 1) rest

/-- Splitting at a step boundary commutes with conversion: converting the
whole text equals converting the consumed prefix and the remaining suffix
separately and concatenating. -/
theorem convertChars_takeSteps (chain : DictChain) :
    ∀ (n : Nat) (s p q : List Char), takeStepsAux chain n s = (p, q) →
      convertChars chain s = convertChars chain p ++ convertChars chain q := by
  intro n
  induction n with
  | zero =>
    intro s p q h
    simp only [takeStepsAux, Prod.mk.injEq] at h
    rw [← h.1, ← h.2, convertChars_nil]
    rfl
  | succ n ih =>
    intro s p q h
    cases s with
    | nil =>
      simp only [takeStepsAux, Prod.mk.injEq] at h
      rw [← h.1, ← h.2, convertChars_nil]
      rfl
    | cons c rest =>
      simp only [takeStepsAux] at h
      cases hm : matchAt chain (c :: rest) with
      | none =>
        rw [hm] at h
        simp only [Prod.mk.injEq] at h
        obtain ⟨hp, hq⟩ := h
        have hrest : takeStepsAux chain n rest =
            ((takeStepsAux chain n rest).1, (takeStepsAux chain n rest).2) := rfl
        have hsplit := ih rest _ _ hrest
        have hpq : (takeStepsAux chain n rest).1 ++ q = rest := by
          rw [← hq]; exact takeStepsAux_append chain n rest
        have hnone2 : matchAt chain (c :: (takeStepsAux chain n rest).1) = none := by
          have heq : (c :: (takeStepsAux chain n rest).1) ++ q = c :: rest := by
            simp [hpq]
          rw [← heq] at hm
          exact matchAt_append_none _ q chain hm
        rw [← hp, ← hq, convertChars_cons_none chain c rest hm, hsplit,
          convertChars_cons_none chain c _ hnone2]
        simp
      | some pr =>
        obtain ⟨len, repl⟩ := pr
        rw [hm] at h
        simp only [Prod.mk.injEq] at h
        obtain ⟨hp, hq⟩ := h
        obtain ⟨hlen1, hlen2⟩ := matchAt_len_bounds chain (c :: rest) len repl hm
        simp only [List.length_cons] at hlen2
        have htail : List.take (len - 1) rest ++ (takeStepsAux chain n (List.drop (len - 1) rest)).1 ++
            (takeStepsAux chain n (List.drop (len - 1) rest)).2 ++ [] = rest := by
          simp only [List.append_nil, List.append_assoc]
          rw [takeStepsAux_append chain n (List.drop (len - 1) rest)]
          exact List.take_append_drop (len - 1) rest
        have hlentake : (List.take (len - 1) rest).length = len - 1 := by
          rw [List.length_take]
          omega
        have hplen : len ≤ (c :: (List.take (len - 1) rest ++
            (takeStepsAux chain n (List.drop (len - 1) rest)).1)).length := by
          simp only [List.length_cons, List.length_append, hlentake]
          omega
        have hfull : (c :: (List.take (len - 1) rest ++
            (takeStepsAux chain n (List.drop (len - 1) rest)).1)) ++
            (takeStepsAux chain n (List.drop (len - 1) rest)).2 = c :: rest := by
          simp only [List.cons_append, List.cons.injEq, true_and, List.append_assoc]
          rw [takeStepsAux_append chain n (List.drop (len - 1) rest)]
          exact List.take_append_drop (len - 1) rest
        have hmp : matchAt chain (c :: (List.take (len - 1) rest ++
            (takeStepsAux chain n (List.drop (len - 1) rest)).1)) = some (len, repl) := by
          rw [← hfull] at hm
          exact matchAt_append_some _ _ chain len repl hm hplen
        have hdrop : List.drop (len - 1) (List.take (len - 1) rest ++
            (takeStepsAux chain n (List.drop (len - 1) rest)).1) =
            (takeStepsAux chain n (List.drop (len - 1) rest)).1 :=
          List.drop_left' hlentake
        have hrest : takeStepsAux chain n (List.drop (len - 1) rest) =
            ((takeStepsAux chain n (List.drop (len - 1) rest)).1,
             (takeStepsAux chain n (List.drop (len - 1) rest)).2) := rfl
        have hsplit := ih (List.drop (len - 1) rest) _ _ hrest
        rw [convertChars_cons_some chain c rest len repl hm, hsplit, ← hp,
          convertChars_cons_some chain c _ len repl hmp, hdrop, ← hq]
        simp

/-- Fuel-indexed chunker: cut the text into chunks of up to `k + 1`
forward-maximum-matching steps each.  The fuel (any value at least the
text's length suffices) makes the recursion structural; on fuel exhaustion
the whole remainder becomes one chunk, which is still a correct chunking. -/
def chunksFuel (chain : DictChain) (k : Nat) : Nat → List Char → List (List Char)
  | 0, s => if s.isEmpty then [] else [s]
  | fuel + 1, s =>
    if s.isEmpty then []
    else
      let pq := takeStepsAux chain (k + 1) s
      pq.1 :: chunksFuel chain k fuel pq.2

/-- Partition of the input into chunks at safe (step-boundary) positions. -/
def chunks (chain : DictChain) (k : Nat) (s : List Char) : List (List Char) :=
  chunksFuel chain k s.length s

/-- Converting the chunks independently and concatenating in original chunk
order gives exactly the sequential conversion. -/
theorem chunksFuel_convert (chain : DictChain) (k : Nat) :
    ∀ (fuel : Nat) (s : List Char),
      ((chunksFuel chain k fuel s).map (convertChars chain)).flatten =
        convertChars chain s := by
  intro fuel
  induction fuel with
  | zero =>
    intro s
    cases s with
    | nil => rfl
    | cons c rest => simp [chunksFuel]
  | succ fuel ih =>
    intro s
    cases s with
    | nil => rfl
    | cons c rest =>
      simp only [chunksFuel, List.isEmpty_cons, if_false, List.map_cons, List.flatten_cons,
        Bool.false_eq_true]
      rw [ih]
      exact (convertChars_takeSteps chain (k + 1) (c :: rest) _ _ rfl).symm

/-! ## Conversion Engine and Instance (spec §3, §4.3, §4.5)

Modelled from the spec: the engine, its static configuration registry, the
punctuation table, the Instance (parallel flag) and the last-error slot are
all part of the native library and are not in the repository. -/

/-- Mutable session state of one engine instance: just the
parallel-execution flag (spec §3, Instance). -/
structure Instance where
  parallel : Bool
deriving DecidableEq, Repr

/-- The static, immutable engine data shared by all instances: the
configuration registry (name → dictionary chain), the punctuation mapping
table, the internal chunking threshold and the chunk size used by the
parallel path (spec §3, §4.3). -/
structure Engine where
  configs : List (String × DictChain)
  punctTable : List (Char × Char)
  threshold : Nat
  chunkSteps : Nat

/-- Resolution of a configuration name against the static registry
(spec §3, Configuration): exact, case-sensitive match; unknown name is an
error, not a fallback. -/
def resolveConfig (eng : Engine) (name : String) : Option DictChain :=
  (eng.configs.find? (fun p => p.1 == name)).map (fun p => p.2)

/-- Whole-character punctuation substitution (spec §4.3): each codepoint is
replaced through the fixed mapping table, independent of position. -/
def applyPunct (table : List (Char × Char)) (c : Char) : Char :=
  match table.find? (fun p => p.1 == c) with
  | some p => p.2
  | none => c

/-- Core text conversion (spec §4.3): the sequential path, or the chunked
path when the parallel flag is set and the input exceeds the threshold. -/
def convertParallel (chain : DictChain) (parallel : Bool) (threshold k : Nat)
    (s : List Char) : List Char :=
  if parallel && decide (threshold < s.length) then
    ((chunks chain k s).map (convertChars chain)).flatten
  else
    convertChars chain s

/-- Full conversion of one text on one instance (spec §4.3): chunked or
sequential core conversion, then the optional punctuation pass. -/
def convertText (eng : Engine) (inst : Instance) (chain : DictChain)
    (punctuation : Bool) (s : List Char) : List Char :=
  let core := convertParallel chain inst.parallel eng.threshold eng.chunkSteps s
  if punctuation then core.map (applyPunct eng.punctTable) else core

/-- One `convert` call at the boundary (spec §4.3, §6, §7): resolves the
configuration name, converts on success, or returns the failure sentinel
and sets the last-error slot on an unknown name.  The returned tuple is
(result sentinel, engine data, instance state, last-error slot), making
explicit that the shared engine data and the instance state pass through. -/
def opencc_convert (eng : Engine) (inst : Instance) (lastError : Option String)
    (text config : String) (punctuation : Bool) :
    Option String × Engine × Instance × Option String :=
  match resolveConfig eng config with
  | none => (none, eng, inst, some ("Invalid config: " ++ config))
  | some chain =>
    (some (String.mk (convertText eng inst chain punctuation text.data)), eng, inst, lastError)

/-! ## Script Detector (spec §4.4)

Modelled from the spec: `detect` scans codepoints; each codepoint is
classified by static membership in a simplified-only set or a
traditional-only set, all other codepoints are neutral.  The detector is a
pure function of the text and the static tables. -/

/-- Classification result of the Script Detector (spec §4.4). -/
inductive ScriptKind where
  | noSig
  | simplified
  | traditional
  | both
deriving DecidableEq, Repr

/-- Spec §4.4 `detect(text)`: `noSig` when no codepoint gives a signal,
`simplified`/`traditional` when all signals agree, `both` when both kinds
of signal occur. -/
def detect (simpOnly tradOnly : List Char) (s : List Char) : ScriptKind :=
  match s.any (fun c => simpOnly.contains c), s.any (fun c => tradOnly.contains c) with
  | false, false => ScriptKind.noSig
  | true, false => ScriptKind.simplified
  | false, true => ScriptKind.traditional
  | true, true => ScriptKind.both

/-- Modelled from the spec: the static simplified-only membership table is
not in the repository; this instantiation records exactly the memberships
the spec's examples assert (the codepoints of "你好" are simplified-only). -/
def zhoSimpOnly : List Char := ['你', '好']

/-- Modelled from the spec: the static traditional-only membership table is
not in the repository; this instantiation records exactly the membership
the spec's examples assert (the codepoint the spec's mixed example "你好您好"
adds is traditional-only). -/
def zhoTradOnly : List Char := ['您']

/-- The boundary-level script check (wrapper lines 46-61 forward the
instance handle and the input text to the native `opencc_zho_check`): per
spec §4.4 the classification is a pure function of the text and the static
tables, so the instance argument is not consulted. -/
def opencc_zho_check (_inst : Instance) (s : List Char) : ScriptKind :=
  detect zhoSimpOnly zhoTradOnly s

/-- Instance/Concurrency Manager accessor (spec §4.5, wrapper lines 63-65). -/
def opencc_get_parallel (inst : Instance) : Bool :=
  inst.parallel

/-- Instance/Concurrency Manager mutator (spec §4.5, wrapper lines 67-69):
sets the instance's parallel-execution flag. -/
def opencc_set_parallel (_inst : Instance) (isParallel : Bool) : Instance :=
  { parallel := isParallel }

/-! ## JNI wrapper marshaling (OpenccWrapper.cpp)

These definitions embed the wrapper source itself.  Bytes are modelled as
natural numbers; 0 is the NUL byte. -/

/-- Bytes of a C string as read through `c_str()`/`strlen`: everything up
to (excluding) the first NUL byte. -/
def cStr (bs : List Nat) : List Nat := bs.takeWhile (fun b => !(b == 0))

/-- Release mode of `ReleaseByteArrayElements`: mode 0 / `JNI_COMMIT`
copies the native buffer back into the Java array, `JNI_ABORT` discards
the native buffer. -/
inductive ReleaseMode where
  | copyBack
  | jniAbort
deriving DecidableEq, Repr

/-- Resulting Java array contents after `ReleaseByteArrayElements`. -/
def releaseByteArrayElements (javaArr nativeBuf : List Nat) : ReleaseMode → List Nat
  | ReleaseMode.copyBack => nativeBuf
  | ReleaseMode.jniAbort => javaArr

/-- Embedding of `Java_opencc_OpenccWrapper_opencc_1convert` (wrapper lines
11-40).  `engineFn` abstracts the native `opencc_convert` (a null return is
`none`).  Marshaling per the source: each input array is copied whole into
a `std::string` (line 17) and released with `JNI_ABORT` (line 18); the
native call receives `c_str()` of each string (line 26), i.e. the bytes up
to the first NUL; the returned array holds `strlen(output)` bytes (lines
31-34), i.e. the output's bytes up to its first NUL.  The tuple is
(returned array or null, final input array contents, final config array
contents). -/
def Java_opencc_OpenccWrapper_opencc_1convert (engineFn : List Nat → List Nat → Bool → Option (List Nat))
    (input config : List Nat) (punctuation : Bool) :
    Option (List Nat) × List Nat × List Nat :=
  let inputString := input
  let configString := config
  let inputAfter := releaseByteArrayElements input inputString ReleaseMode.jniAbort
  let configAfter := releaseByteArrayElements config configString ReleaseMode.jniAbort
  let output := engineFn (cStr inputString) (cStr configString) punctuation
  let result := match output with
    | none => none
    | some out => some (cStr out)
  (result, inputAfter, configAfter)

/-- Embedding of `Java_opencc_OpenccWrapper_opencc_1zho_1check` (wrapper
lines 46-61): the input array is copied whole into a `std::string`, the
native check receives its `c_str()`, and the array is released with
`JNI_ABORT`.  The tuple is (returned code, final input array contents). -/
def Java_opencc_OpenccWrapper_opencc_1zho_1check (checkFn : List Nat → Int) (input : List Nat) : Int × List Nat :=
  let inputString := input
  let code := checkFn (cStr inputString)
  (code, releaseByteArrayElements input inputString ReleaseMode.jniAbort)

/-! ## Helper lemmas shared by the claim theorems -/

/-- The chunked path never changes the result: the parallel core conversion
agrees with the sequential one for every flag, threshold and input. -/
theorem convertParallel_eq_seq (chain : DictChain) (par : Bool) (thr k : Nat)
    (s : List Char) : convertParallel chain par thr k s = convertChars chain s := by
  unfold convertParallel
  by_cases h : (par && decide (thr < s.length)) = true
  · rw [if_pos h]
    exact chunksFuel_convert chain k s.length s
  · rw [if_neg h]

/-- Text in which no nonempty dictionary source occurs is converted to
itself. -/
theorem convertChars_id_of_no_infix (chain : DictChain) :
    ∀ s : List Char, (∀ e ∈ chain.flatten, e.src ≠ [] → ¬ (e.src <:+: s)) →
      convertChars chain s = s := by
  intro s
  induction s with
  | nil => intro _; rfl
  | cons c rest ih =>
    intro H
    have hnone : matchAt chain (c :: rest) = none := by
      cases hm : matchAt chain (c :: rest) with
      | none => rfl
      | some p =>
        obtain ⟨len, repl⟩ := p
        obtain ⟨e, he, hmt, _, _⟩ := matchEntries_some_mem _ _ _ _ hm
        rw [entryMatches_iff] at hmt
        exact absurd hmt.2.isInfix (H e he hmt.1)
    have hrest := ih (fun e he hne hinf => H e he hne (List.infix_cons hinf))
    rw [convertChars_cons_none chain c rest hnone, hrest]

/-- A NUL-free byte sequence passes through `cStr` unchanged. -/
theorem cStr_eq_self (bs : List Nat) (h : 0 ∉ bs) : cStr bs = bs := by
  apply List.takeWhile_eq_self_iff.mpr
  intro b hb
  have hb0 : b ≠ 0 := fun he => h (he ▸ hb)
  simp [hb0]

/-- The dictionary of the spec's longest-match example: exactly the entries
行 → 行 and 银行 → 銀行, in one table. -/
def bankTable : DictTable :=
  [⟨"行".data, "行".data⟩, ⟨"银行".data, "銀行".data⟩]

/-- Single-table chain holding the spec's longest-match example entries. -/
def bankChain : DictChain := [bankTable]

/-- Small concrete registry used to witness configuration-name claims. -/
def sampleEngine : Engine :=
  { configs := [("s2t", bankChain)], punctTable := [], threshold := 1000, chunkSteps := 4 }

/-! ## Claim theorems -/

/-- C1 counterexample: with exactly the dictionary entries
行 → 行 and 银行 → 銀行 that the claim fixes, converting "中国银行" does not
yield "中國銀行": no entry maps 国 to 國, so the conversion yields "中国銀行"
(the two-character entry does win at 银, but 国 passes through unchanged). -/
theorem bank_example_not_zhongguo :
    convertChars bankChain "中国银行".data = "中国銀行".data ∧
      convertChars bankChain "中国银行".data ≠ "中國銀行".data := by
  constructor
  · rfl
  · decide

/-- C1 (amended): longest-match precedence of the Segmenter/Matcher.  For
every chain and remaining text, the winning match is at least as long as
every matching entry of every table in the chain, and the winner is the
first entry, in chain order, among those matching with the winning length
(length ties are broken by chain order, earlier table wins); with the
entries 行 → 行 and 银行 → 銀行, converting "中国银行" yields "中国銀行"
(the 2-character entry wins over the 1-character entry at the same start
position; 国 has no entry and passes through). -/
theorem longest_match_precedence :
    (∀ (chain : DictChain) (s : List Char) (len : Nat) (repl : List Char),
      matchAt chain s = some (len, repl) →
        (∀ e ∈ chain.flatten, entryMatches e s = true → e.src.length ≤ len) ∧
        ∃ e, chain.flatten.find? (winsAt s len) = some e ∧
          e.tgt = repl ∧ e.src.length = len) ∧
    convertChars bankChain "中国银行".data = "中国銀行".data := by
  constructor
  · intro chain s len repl h
    exact ⟨scanEntries_max s chain.flatten none len repl h, matchEntries_find s chain.flatten len repl h⟩
  · rfl

/-- C1 witness: the general theorem applied to the example chain at the
remaining text "银行", whose winning match is the 2-character entry. -/
theorem longest_match_precedence_witness :
    ∃ e, bankChain.flatten.find? (winsAt "银行".data 2) = some e ∧
      e.tgt = "銀行".data ∧ e.src.length = 2 :=
  (longest_match_precedence.1 bankChain "银行".data 2 "銀行".data (by decide)).2

/-- C2: parallel/sequential equivalence.  For every engine (hence every
threshold and chunk size), chain, punctuation flag and input — below or
above the chunking threshold — conversion with the instance's parallel
flag set is byte-identical to conversion with the flag cleared, both at
the text level and at the boundary-call level. -/
theorem parallel_sequential_identical :
    (∀ (eng : Engine) (chain : DictChain) (punctuation : Bool) (s : List Char),
      convertText eng ⟨true⟩ chain punctuation s =
        convertText eng ⟨false⟩ chain punctuation s) ∧
    (∀ (eng : Engine) (inst : Instance) (err : Option String)
       (text config : String) (punctuation : Bool),
      (opencc_convert eng (opencc_set_parallel inst true) err text config punctuation).1 =
        (opencc_convert eng (opencc_set_parallel inst false) err text config punctuation).1) := by
  have hT : ∀ (eng : Engine) (chain : DictChain) (punctuation : Bool) (s : List Char),
      convertText eng ⟨true⟩ chain punctuation s =
        convertText eng ⟨false⟩ chain punctuation s := by
    intro eng chain punctuation s
    unfold convertText
    rw [convertParallel_eq_seq, convertParallel_eq_seq]
  refine ⟨hT, ?_⟩
  intro eng inst err text config punctuation
  show (opencc_convert eng ⟨true⟩ err text config punctuation).1 =
    (opencc_convert eng ⟨false⟩ err text config punctuation).1
  unfold opencc_convert
  cases h : resolveConfig eng config with
  | none => rfl
  | some chain => simp [hT eng chain punctuation text.data]

/-- C3: the Script Detector returns `noSig` exactly when no codepoint gives
a classification signal, `simplified`/`traditional` exactly when all
signals agree, and `both` exactly when both kinds of signal occur; on the
spec's instantiated membership tables, "你好" is detected as simplified,
"你好您好" as both, and "123 abc" gives no signal. -/
theorem detect_classification :
    (∀ (simpOnly tradOnly : List Char) (s : List Char),
      (detect simpOnly tradOnly s = ScriptKind.noSig ↔
        ¬ (∃ c ∈ s, c ∈ simpOnly) ∧ ¬ (∃ c ∈ s, c ∈ tradOnly)) ∧
      (detect simpOnly tradOnly s = ScriptKind.simplified ↔
        (∃ c ∈ s, c ∈ simpOnly) ∧ ¬ (∃ c ∈ s, c ∈ tradOnly)) ∧
      (detect simpOnly tradOnly s = ScriptKind.traditional ↔
        ¬ (∃ c ∈ s, c ∈ simpOnly) ∧ (∃ c ∈ s, c ∈ tradOnly)) ∧
      (detect simpOnly tradOnly s = ScriptKind.both ↔
        (∃ c ∈ s, c ∈ simpOnly) ∧ (∃ c ∈ s, c ∈ tradOnly))) ∧
    (∀ inst : Instance, opencc_zho_check inst "你好".data = ScriptKind.simplified) ∧
    (∀ inst : Instance, opencc_zho_check inst "你好您好".data = ScriptKind.both) ∧
    (∀ inst : Instance, opencc_zho_check inst "123 abc".data = ScriptKind.noSig) := by
  refine ⟨?_, ?_, ?_, ?_⟩
  · intro simpOnly tradOnly s
    have hs : (s.any (fun c => simpOnly.contains c) = true) ↔ ∃ c ∈ s, c ∈ simpOnly := by
      simp
    have ht : (s.any (fun c => tradOnly.contains c) = true) ↔ ∃ c ∈ s, c ∈ tradOnly := by
      simp
    unfold detect
    cases h1 : s.any (fun c => simpOnly.contains c) <;>
      cases h2 : s.any (fun c => tradOnly.contains c) <;>
        simp_all
  · intro _
    show detect zhoSimpOnly zhoTradOnly "你好".data = ScriptKind.simplified
    decide
  · intro _
    show detect zhoSimpOnly zhoTradOnly "你好您好".data = ScriptKind.both
    decide
  · intro _
    show detect zhoSimpOnly zhoTradOnly "123 abc".data = ScriptKind.noSig
    decide

/-- C4: the script check is a pure function of the input text and the
static tables: any two calls, on any two instances (whatever each
instance's parallel flag is, and whatever conversions were made on it
before — conversions pass the instance state through unchanged), return
the same classification. -/
theorem zho_check_pure :
    ∀ (i1 i2 : Instance) (s : List Char), opencc_zho_check i1 s = opencc_zho_check i2 s := by
  intro i1 i2 s
  rfl

/-- C5: for every supported configuration name (one the registry resolves)
and every instance, converting the empty string returns the empty string,
leaves the engine data and the instance unchanged, and signals no error
(the last-error slot is exactly what it was before the call). -/
theorem convert_empty_string (eng : Engine) (inst : Instance) (err : Option String)
    (name : String) (punctuation : Bool) (chain : DictChain)
    (h : resolveConfig eng name = some chain) :
    opencc_convert eng inst err "" name punctuation = (some "", eng, inst, err) := by
  unfold opencc_convert
  rw [h]
  have hcore : convertText eng inst chain punctuation ("" : String).data = [] := by
    show convertText eng inst chain punctuation [] = []
    unfold convertText
    rw [convertParallel_eq_seq, convertChars_nil]
    cases punctuation <;> rfl
  simp only [hcore]

/-- C5 witness: the empty string converts to the empty string under the
sample registry's supported name. -/
theorem convert_empty_string_witness :
    resolveConfig sampleEngine "s2t" = some bankChain ∧
      opencc_convert sampleEngine ⟨false⟩ none "" "s2t" false =
        (some "", sampleEngine, ⟨false⟩, none) :=
  ⟨rfl, convert_empty_string sampleEngine ⟨false⟩ none "s2t" false bankChain rfl⟩

/-- C6: a configuration name outside the fixed static set makes `convert`
return the failure sentinel (no converted text) and leave a non-null
message in the last-error slot. -/
theorem unknown_config_error (eng : Engine) (inst : Instance) (err : Option String)
    (text name : String) (punctuation : Bool)
    (h : ∀ cfg ∈ eng.configs, cfg.1 ≠ name) :
    (opencc_convert eng inst err text name punctuation).1 = none ∧
      ∃ msg, (opencc_convert eng inst err text name punctuation).2.2.2 = some msg := by
  have hres : resolveConfig eng name = none := by
    unfold resolveConfig
    rw [List.find?_eq_none.mpr]
    · rfl
    · intro cfg hcfg
      simp [h cfg hcfg]
  unfold opencc_convert
  rw [hres]
  exact ⟨rfl, "Invalid config: " ++ name, rfl⟩

/-- C6 witness: the sample registry rejects the name "bogus" with the
sentinel and a retrievable error message. -/
theorem unknown_config_error_witness :
    (opencc_convert sampleEngine ⟨false⟩ none "abc" "bogus" false).1 = none ∧
      ∃ msg, (opencc_convert sampleEngine ⟨false⟩ none "abc" "bogus" false).2.2.2 = some msg :=
  unknown_config_error sampleEngine ⟨false⟩ none "abc" "bogus" false (by decide)

/-- C7: every failing convert call is atomic: when the call returns the
failure sentinel, no partial output is produced (the result is the
sentinel itself), and both the shared engine data (dictionary store,
registry, punctuation table, thresholds) and the instance state (its
parallel flag) are exactly what they were before the call. -/
theorem failed_convert_atomic (eng : Engine) (inst : Instance) (err : Option String)
    (text name : String) (punctuation : Bool)
    (h : (opencc_convert eng inst err text name punctuation).1 = none) :
    (opencc_convert eng inst err text name punctuation).2.1 = eng ∧
      (opencc_convert eng inst err text name punctuation).2.2.1 = inst := by
  unfold opencc_convert at h ⊢
  cases hres : resolveConfig eng name with
  | none => exact ⟨rfl, rfl⟩
  | some chain =>
    rw [hres] at h
    simp at h

/-- C7 witness: the failing call on the unknown name "bogus" leaves the
sample engine data and the instance state unchanged. -/
theorem failed_convert_atomic_witness :
    (opencc_convert sampleEngine ⟨true⟩ none "text" "bogus" true).2.1 = sampleEngine ∧
      (opencc_convert sampleEngine ⟨true⟩ none "text" "bogus" true).2.2.1 = (⟨true⟩ : Instance) :=
  failed_convert_atomic sampleEngine ⟨true⟩ none "text" "bogus" true rfl

/-- C8: at a position where no table in the chain matches, the
Segmenter/Matcher copies exactly the single current codepoint through
unchanged and advances by exactly one codepoint (the model works at
codepoint granularity, so a multi-byte codepoint is never split); hence a
text in which no nonempty dictionary source occurs is returned unchanged. -/
theorem no_match_copies_codepoint :
    (∀ (chain : DictChain) (c : Char) (rest : List Char),
      matchAt chain (c :: rest) = none →
        convertChars chain (c :: rest) = c :: convertChars chain rest) ∧
    (∀ (chain : DictChain) (s : List Char),
      (∀ e ∈ chain.flatten, e.src ≠ [] → ¬ (e.src <:+: s)) →
        convertChars chain s = s) :=
  ⟨convertChars_cons_none, convertChars_id_of_no_infix⟩

/-- C8 witness: on the example chain, no entry matches at 中, the codepoint
is copied and the cursor advances one codepoint; the text "中文", which
contains no dictionary source, is returned unchanged. -/
theorem no_match_copies_codepoint_witness :
    convertChars bankChain ('中' :: "文".data) = '中' :: convertChars bankChain "文".data ∧
      convertChars bankChain "中文".data = "中文".data :=
  ⟨no_match_copies_codepoint.1 bankChain '中' "文".data (by decide),
   no_match_copies_codepoint.2 bankChain "中文".data (by decide)⟩

/-- C9: the convert boundary truncates at NUL bytes.  For every native
function and every pair of Java byte arrays, the native call receives
exactly the bytes up to (excluding) the first 0x00 of each array, and the
returned Java array holds exactly the native output's bytes up to
(excluding) its first 0x00; when the input, the configuration and the
native output are NUL-free, the full byte sequences cross the boundary
unaltered. -/
theorem convert_boundary_nul_truncation :
    (∀ (engineFn : List Nat → List Nat → Bool → Option (List Nat))
       (input config : List Nat) (punctuation : Bool),
      (Java_opencc_OpenccWrapper_opencc_1convert engineFn input config punctuation).1 =
        (engineFn (cStr input) (cStr config) punctuation).map cStr) ∧
    (∀ (engineFn : List Nat → List Nat → Bool → Option (List Nat))
       (input config out : List Nat) (punctuation : Bool),
      0 ∉ input → 0 ∉ config → 0 ∉ out →
      engineFn input config punctuation = some out →
      (Java_opencc_OpenccWrapper_opencc_1convert engineFn input config punctuation).1 = some out) := by
  have hmap : ∀ (engineFn : List Nat → List Nat → Bool → Option (List Nat))
      (input config : List Nat) (punctuation : Bool),
      (Java_opencc_OpenccWrapper_opencc_1convert engineFn input config punctuation).1 =
        (engineFn (cStr input) (cStr config) punctuation).map cStr := by
    intro engineFn input config punctuation
    cases h : engineFn (cStr input) (cStr config) punctuation <;>
      simp [Java_opencc_OpenccWrapper_opencc_1convert, h]
  refine ⟨hmap, ?_⟩
  intro engineFn input config out punctuation hin hcfg hout heng
  rw [hmap, cStr_eq_self input hin, cStr_eq_self config hcfg, heng]
  simp [cStr_eq_self out hout]

/-- C9 witness: with a concrete NUL-free input, configuration and native
output, the full byte sequences cross the boundary unaltered. -/
theorem convert_boundary_nul_truncation_witness :
    (0 : Nat) ∉ [1, 2] ∧ (0 : Nat) ∉ [3] ∧ (0 : Nat) ∉ [1, 2, 3] ∧
      (Java_opencc_OpenccWrapper_opencc_1convert (fun i c _ => some (i ++ c)) [1, 2] [3] true).1 = some [1, 2, 3] :=
  ⟨by decide, by decide, by decide,
    convert_boundary_nul_truncation.2 (fun i c _ => some (i ++ c)) [1, 2] [3] [1, 2, 3] true
      (by decide) (by decide) (by decide) rfl⟩

/-- C10: neither convert nor the script check modifies the caller's Java
byte arrays: after either call, the input and configuration arrays hold
exactly the bytes they held before — the native-side copies are released
with `JNI_ABORT`, which discards the native buffer instead of copying it
back. -/
theorem wrapper_preserves_caller_arrays :
    (∀ (engineFn : List Nat → List Nat → Bool → Option (List Nat))
       (input config : List Nat) (punctuation : Bool),
      (Java_opencc_OpenccWrapper_opencc_1convert engineFn input config punctuation).2.1 = input ∧
        (Java_opencc_OpenccWrapper_opencc_1convert engineFn input config punctuation).2.2 = config) ∧
    (∀ (checkFn : List Nat → Int) (input : List Nat),
      (Java_opencc_OpenccWrapper_opencc_1zho_1check checkFn input).2 = input) ∧
    (∀ javaArr nativeBuf : List Nat,
      releaseByteArrayElements javaArr nativeBuf ReleaseMode.jniAbort = javaArr) :=
  ⟨fun _ _ _ _ => ⟨rfl, rfl⟩, fun _ _ => rfl, fun _ _ => rfl⟩

end OpenccJNI
